import Mathlib

/-!
Shallow embedding of the multilayer-perceptron implementation in
`07 - ANNs II/python/07_mlp_example.py`.

Vectors are `List α`, matrices are lists of rows, and Python floats are
modelled by an ordered field (`ℚ` in concrete evaluations, `ℝ` where the
sigmoid is involved).  In-place mutation of the `MLP` object is modelled by
explicit state passing; an operation that can raise a NumPy `ValueError`
returns the mutated-so-far state together with an `Except` value.

NumPy facts the embedding relies on (all standard, documented behaviour):
* `a[:]` on an `ndarray` is a view, not a copy; the constructor's
  `e = a[:]` therefore aliases `errors[i]` and `activations[i]`.
* slice assignment `b[:] = v` copies values elementwise when lengths agree,
  broadcasts a length-1 `v`, and raises `ValueError` (without any partial
  write) otherwise; assigning a vector into a 2-D array broadcasts it into
  every row.
* `np.dot(v, M)` for 1-D `v` and 2-D `M` requires `len(v) == M.shape[0]`
  and does not broadcast.
-/

namespace MLPNet

/-- A matrix is a list of rows. -/
abbrev Mat (α : Type) := List (List α)

/-- State of the Python `MLP` object.  The source constructor builds
`activations[i]` as `a = np.zeros(layers[i])` and `errors[i]` as `e = a[:]`,
a NumPy view of the same storage, so the embedding keeps one list `buffers`
of per-layer vectors that both names denote. -/
structure MLP (α : Type) where
  numInputs : Nat
  hiddenLayers : List Nat
  numOutputs : Nat
  weights : List (Mat α)
  buffers : List (List α)
  derivatives : List (Mat α)
deriving DecidableEq

variable {α : Type}

/-- `self.activations`: reads the shared per-layer buffers. -/
def MLP.activations (m : MLP α) : List (List α) := m.buffers

/-- `self.errors`: the same storage as `self.activations` (see `MLP`). -/
def MLP.errors (m : MLP α) : List (List α) := m.buffers

/-- `layers = [numInputs] + list(hiddenLayers) + [numOutputs]`. -/
def MLP.layerList (m : MLP α) : List Nat :=
  m.numInputs :: (m.hiddenLayers ++ [m.numOutputs])

/-- Dot product of two equal-length vectors. -/
def dotVV [Field α] (u v : List α) : α :=
  (List.zipWith (fun x y => x * y) u v).sum

/-- Number of columns of a matrix (length of its first row). -/
def cols (M : Mat α) : Nat := (M.head?.map List.length).getD 0

/-- `np.dot(v, M)` for a 1-D `v` whose length equals the row count of `M`:
component `k` is `Σ_j v[j] * M[j][k]`. -/
def vecMat [Field α] (v : List α) (M : Mat α) : List α :=
  (List.range (cols M)).map (fun k => (List.zipWith (fun x row => x * row.getD k 0) v M).sum)

/-- Elementwise matrix addition (shapes agree in all uses). -/
def matAdd [Field α] (A B : Mat α) : Mat α :=
  List.zipWith (List.zipWith (fun x y => x + y)) A B

/-- Elementwise `A * c`. -/
def matScale [Field α] (A : Mat α) (c : α) : Mat α :=
  A.map (List.map (fun x => x * c))

/-- `MLP._sigmoidPrime`: `x * (1.0 - x)`. -/
def sigmoidPrime [Field α] (x : α) : α := x * (1 - x)

/-- `MLP._sigmoid`: `1.0 / (1 + np.exp(-x))`. -/
noncomputable def sigmoid (x : ℝ) : ℝ := 1 / (1 + Real.exp (-x))

/-- NumPy slice assignment `b[:] = v` for a 1-D buffer `b`: keeps `b`'s shape,
succeeds when lengths agree, broadcasts a length-1 `v`, raises otherwise. -/
def assignVec (b v : List α) : Except String (List α) :=
  if v.length = b.length then Except.ok v
  else
    match v with
    | [x] => Except.ok (List.replicate b.length x)
    | _ => Except.error "ShapeMismatch"

/-- The loop of `MLP.activate` over the remaining transition indices,
threading the object state and the local variable `activation`.  Each step
computes `np.dot(activation, weights[i])` (raising when the lengths are not
aligned, with all earlier writes retained), applies the activation function
elementwise and stores the result in `activations[i+1]`. -/
def actGo [Field α] (f : α → α) : List Nat → MLP α → List α → MLP α × Except String (List α)
  | [], m, act => (m, Except.ok act)
  | i :: rest, m, act =>
    let W := m.weights.getD i []
    if act.length = W.length then
      let act2 := (vecMat act W).map f
      match assignVec (m.buffers.getD (i + 1) []) act2 with
      | Except.ok b => actGo f rest { m with buffers := m.buffers.set (i + 1) b } act2
      | Except.error s => (m, Except.error s)
    else (m, Except.error "ShapeMismatch")

/-- `MLP.activate`, parametric in the activation function (the source always
passes `_sigmoid`).  First `self.activations[0][:] = input`, then the layer
loop; the local variable `activation` keeps the caller's vector, exactly as
in the source. -/
def MLP.activateE [Field α] (f : α → α) (m : MLP α) (input : List α) :
    MLP α × Except String (List α) :=
  match assignVec (m.buffers.getD 0 []) input with
  | Except.ok b0 =>
      actGo f (List.range m.weights.length) { m with buffers := m.buffers.set 0 b0 } input
  | Except.error s => (m, Except.error s)

/-- One iteration of the backward loop of `MLP.backActivate` at index `i`:
reads `activations[i+1]` (the shared buffer), forms
`delta = error * sigmoidPrime(activation)` elementwise, stores `delta` into
every row of `derivatives[i]` (the broadcast performed by
`self.derivatives[i][:] = delta`), propagates `error = np.dot(delta,
weights[i].T)` and stores it into `errors[i]` (again the shared buffer). -/
def backStep [Field α] (st : MLP α × List α) (i : Nat) : MLP α × List α :=
  let m := st.1
  let err := st.2
  let activation := m.buffers.getD (i + 1) []
  let delta := List.zipWith (fun e a => e * sigmoidPrime a) err activation
  let m2 := { m with derivatives :=
    m.derivatives.set i ((m.derivatives.getD i []).map (fun _ => delta)) }
  let err2 := (m2.weights.getD i []).map (fun row => dotVV delta row)
  let m3 := { m2 with buffers := m2.buffers.set i err2 }
  (m3, err2)

/-- `MLP.backActivate`: `self.errors[-1][:] = error`, then the backward loop
over `reversed(range(len(self.derivatives)))`, returning the final local
`error` together with the mutated state.  Defined on shape-conforming
arguments (where the NumPy operations raise nothing). -/
def MLP.backActivate [Field α] (m : MLP α) (error : List α) : MLP α × List α :=
  let m1 := { m with buffers := m.buffers.set (m.buffers.length - 1) error }
  ((List.range m.derivatives.length).reverse).foldl backStep (m1, error)

/-- `MLP.gradientDescent`: `weights[i] += derivatives[i] * learningRate` for
each `i`.  Every loop iteration updates slot `i` in place from its own
pre-update value, so the loop is an index-wise map. -/
def MLP.gradientDescent [Field α] (m : MLP α) (learningRate : α) : MLP α :=
  { m with weights := (List.range m.weights.length).map (fun i =>
      matAdd (m.weights.getD i []) (matScale (m.derivatives.getD i []) learningRate)) }

/-- `np.random.rand(r, c)` with an explicit value source `f`. -/
def matOfFn [Field α] (r c : Nat) (f : Nat → Nat → α) : Mat α :=
  (List.range r).map (fun j => (List.range c).map (fun k => f j k))

/-- `MLP.__init__` with the process-wide random generator made explicit:
`rand i j k` is the value `np.random.rand` yields for entry `(j, k)` of
weight matrix `i`.  Buffers are zero-initialised; `errors` shares the
`activations` storage (see `MLP`). -/
def mkMLP [Field α] (rand : Nat → Nat → Nat → α) (numInputs : Nat)
    (hiddenLayers : List Nat) (numOutputs : Nat) : MLP α :=
  let layers := numInputs :: (hiddenLayers ++ [numOutputs])
  { numInputs := numInputs
    hiddenLayers := hiddenLayers
    numOutputs := numOutputs
    weights := (List.range (layers.length - 1)).map (fun i =>
      matOfFn (layers.getD i 0) (layers.getD (i + 1) 0) (rand i))
    buffers := layers.map (fun n => List.replicate n (0 : α))
    derivatives := (List.range (layers.length - 1)).map (fun i =>
      matOfFn (layers.getD i 0) (layers.getD (i + 1) 0) (fun _ _ => (0 : α))) }

/-- Construction as a fallible operation.  The source constructor performs no
validation of its arguments; with natural-number sizes none of its NumPy
calls can raise, so construction always succeeds with the `mkMLP` state. -/
def constructMLP [Field α] (rand : Nat → Nat → Nat → α) (numInputs : Nat)
    (hiddenLayers : List Nat) (numOutputs : Nat) : Except String (MLP α) :=
  Except.ok (mkMLP rand numInputs hiddenLayers numOutputs)

/-- `mse(target, output) = np.average((target - output) ** 2, axis=0)`:
the sum of squared differences divided by the length of that array. -/
def mse [Field α] (target output : List α) : α :=
  let sq := List.zipWith (fun t o => (t - o) ^ 2) target output
  sq.sum / (sq.length : α)

/-- `M` is an `r × c` matrix. -/
def isMatrix (M : Mat α) (r c : Nat) : Prop :=
  M.length = r ∧ ∀ row ∈ M, row.length = c

/-- Shape well-formedness of an `MLP` state: list lengths and per-layer
shapes as produced by the constructor, with every layer size positive. -/
def WF (m : MLP α) : Prop :=
  m.weights.length + 1 = m.layerList.length ∧
  m.buffers.length = m.layerList.length ∧
  m.derivatives.length = m.weights.length ∧
  (∀ i < m.buffers.length, (m.buffers.getD i []).length = m.layerList.getD i 0) ∧
  (∀ i < m.weights.length,
    isMatrix (m.weights.getD i []) (m.layerList.getD i 0) (m.layerList.getD (i + 1) 0)) ∧
  (∀ i < m.derivatives.length,
    isMatrix (m.derivatives.getD i []) (m.layerList.getD i 0) (m.layerList.getD (i + 1) 0)) ∧
  (∀ s ∈ m.layerList, 0 < s)

/-- All rows of a matrix are identical. -/
def constantRows (M : Mat α) : Prop := ∀ r1 ∈ M, ∀ r2 ∈ M, r1 = r2

/-- The spec's gradient formula (§4.1):
`derivatives[i] = outerProduct(activations[i], delta)`.  Stated from the
spec's words, for comparison with the source behaviour. -/
def outerProductSpec [Field α] (u v : List α) : Mat α :=
  u.map (fun x => v.map (fun y => x * y))

/-- A concrete freshly constructed rational network `MLP(1, (1,), 1)` with all
random draws equal to `1/2`, used to instantiate theorems with hypotheses. -/
def wnetQ : MLP ℚ := mkMLP (fun _ _ _ => (1 / 2 : ℚ)) 1 [1] 1

/-- A concrete real network `MLP(1, (1,), 1)` with unit weights. -/
noncomputable def wnetR : MLP ℝ := mkMLP (fun _ _ _ => (1 : ℝ)) 1 [1] 1

/-- A concrete real network with `numInputs = 2`. -/
noncomputable def wnetR2 : MLP ℝ := mkMLP (fun _ _ _ => (1 : ℝ)) 2 [] 1

/-! ## Helper lemmas -/

theorem getD_set_self {β : Type} (l : List β) (i : Nat) (v d : β) (h : i < l.length) :
    (l.set i v).getD i d = v := by
  rw [List.getD_eq_getElem _ _ (by simpa using h)]
  simp

theorem getD_set_ne {β : Type} (l : List β) (i j : Nat) (v : β) (d : β) (h : i ≠ j) :
    (l.set i v).getD j d = l.getD j d := by
  by_cases hj : j < l.length
  · rw [List.getD_eq_getElem _ _ (by simpa using hj), List.getD_eq_getElem _ _ hj]
    exact List.getElem_set_ne h _
  · rw [List.getD_eq_default _ _ (by simpa using Nat.le_of_not_lt hj),
      List.getD_eq_default _ _ (Nat.le_of_not_lt hj)]

theorem getD_zipWith {β γ δ : Type} (f : β → γ → δ) (u : List β) (v : List γ)
    (i : Nat) (hu : i < u.length) (hv : i < v.length) (d : δ) (d₁ : β) (d₂ : γ) :
    (List.zipWith f u v).getD i d = f (u.getD i d₁) (v.getD i d₂) := by
  rw [List.getD_eq_getElem _ _ (by simp [List.length_zipWith]; omega),
    List.getD_eq_getElem _ _ hu, List.getD_eq_getElem _ _ hv]
  simp

theorem list_sum_getD {β : Type} [AddCommMonoid β] (l : List β) :
    l.sum = ∑ i in Finset.range l.length, l.getD i 0 := by
  induction l with
  | nil => simp
  | cons a t ih =>
      rw [List.sum_cons, List.length_cons, Finset.sum_range_succ']
      simp only [List.getD_cons_succ, List.getD_cons_zero]
      rw [ih]
      exact (add_comm _ _)

theorem cols_of_isMatrix {M : Mat α} {r c : Nat} (h : isMatrix M r c) (hr : 0 < r) :
    cols M = c := by
  obtain ⟨hlen, hrow⟩ := h
  cases M with
  | nil => simp at hlen; omega
  | cons w t => simpa [cols] using hrow w (by simp)

theorem vecMat_length [Field α] (v : List α) (M : Mat α) :
    (vecMat v M).length = cols M := by
  simp [vecMat]

theorem layerList_length (m : MLP α) : m.layerList.length = m.hiddenLayers.length + 2 := by
  simp [MLP.layerList]

theorem layerList_getD_zero (m : MLP α) : m.layerList.getD 0 0 = m.numInputs := rfl

theorem layerList_getD_last (m : MLP α) :
    m.layerList.getD (m.hiddenLayers.length + 1) 0 = m.numOutputs := by
  simp only [MLP.layerList, List.getD_cons_succ]
  rw [List.getD_append_right _ _ _ _ (Nat.le_refl _)]
  simp

theorem sigmoid_zero : sigmoid 0 = 1 / 2 := by
  simp [sigmoid]
  norm_num

/-! ## Claim theorems -/

/-- C1: refuted on the code.  In `backActivate`, `self.derivatives[i][:] = delta`
broadcasts the delta vector into every row instead of storing the outer product
`outerProduct(activations[i], delta)`.  Concretely: build the network with
layer sizes `[2, 1]` and unit weights, activate on input `[0, 0]` (so the cached
input-side activation `activations[0]` is `[0, 0]` and `activations[1]` is
`sigmoid(0) = 1/2`), then backActivate with output error `[1/2]`.  The spec's
delta is `errors[1] ⊙ sigmoidPrime(activations[1]) = [1/2 · 1/2·(1-1/2)] = [1/8]`
and its outer product with `activations[0] = [0, 0]` is the zero matrix, but the
code stores `[[1/8], [1/8]]`. -/
theorem backActivate_stores_broadcast_delta_not_outer_product :
    ((mkMLP (fun _ _ _ => (1 : ℝ)) 2 [] 1).activateE sigmoid [0, 0]).1.activations.getD 0 []
        = [0, 0] ∧
    ((mkMLP (fun _ _ _ => (1 : ℝ)) 2 [] 1).activateE sigmoid [0, 0]).1.activations.getD 1 []
        = [1 / 2] ∧
    ((((mkMLP (fun _ _ _ => (1 : ℝ)) 2 [] 1).activateE sigmoid [0, 0]).1.backActivate
        [1 / 2]).1).derivatives = [[[1 / 8], [1 / 8]]] ∧
    outerProductSpec ([0, 0] : List ℝ)
        (List.zipWith (fun e a => e * sigmoidPrime a) [1 / 2] [1 / 2]) = [[0], [0]] ∧
    ((1 : ℝ) / 8 ≠ 0) := by
  refine ⟨?_, ?_, ?_, ?_, by norm_num⟩
  · simp [mkMLP, matOfFn, MLP.activateE, actGo, assignVec, vecMat, cols, dotVV,
      MLP.activations, List.range_succ]
  · simp [mkMLP, matOfFn, MLP.activateE, actGo, assignVec, vecMat, cols, dotVV,
      MLP.activations, List.range_succ, sigmoid_zero]
  · simp [mkMLP, matOfFn, MLP.activateE, actGo, assignVec, vecMat, cols, dotVV,
      MLP.backActivate, backStep, sigmoidPrime, List.range_succ, sigmoid_zero]
    norm_num
  · simp [outerProductSpec]

/-- C2: refuted on the code.  The constructor builds `errors[i]` as `e = a[:]`,
a NumPy view of `activations[i]`, so the two caches are the same storage: in
the embedding both accessors read the shared buffers.  Consequently the write
`self.errors[-1][:] = error` at the start of `backActivate` is visible through
`activations`: on a fresh `MLP(1, (1,), 1)` the output-layer activation cache
reads `[0]` before and `[1/2]` after `backActivate([1/2])`. -/
theorem errors_alias_activations :
    (∀ m : MLP ℚ, m.errors = m.activations) ∧
    (mkMLP (fun _ _ _ => (1 / 2 : ℚ)) 1 [1] 1).activations.getD 2 [] = [0] ∧
    ((mkMLP (fun _ _ _ => (1 / 2 : ℚ)) 1 [1] 1).backActivate [1 / 2]).1.activations.getD 2 []
        = [1 / 2] ∧
    ((1 : ℚ) / 2 ≠ 0) := by
  refine ⟨fun m => rfl, ?_, ?_, by norm_num⟩
  · simp [mkMLP, MLP.activations, List.range_succ]
  · simp [mkMLP, matOfFn, MLP.backActivate, backStep, dotVV, sigmoidPrime,
      MLP.activations, List.range_succ]

/-- C3: refuted on the code.  Calling `backActivate([1/2])` on a freshly
constructed `MLP(1, (1,), 1)` (no prior `activate`) stores the nonzero
derivatives `[[[15/4096]], [[1/8]]]` and returns the nonzero error
`[15/8192]`, because `errors[L][:] = error` overwrites the aliased
`activations[L]`, so `sigmoidPrime` is applied to the just-written error
values rather than to the stale zero activations the claim assumes. -/
theorem backActivate_fresh_network_nonzero :
    ((mkMLP (fun _ _ _ => (1 / 2 : ℚ)) 1 [1] 1).backActivate [1 / 2]).1.derivatives
        = [[[15 / 4096]], [[1 / 8]]] ∧
    ((mkMLP (fun _ _ _ => (1 / 2 : ℚ)) 1 [1] 1).backActivate [1 / 2]).2 = [15 / 8192] ∧
    ((15 : ℚ) / 4096 ≠ 0) ∧ ((15 : ℚ) / 8192 ≠ 0) := by
  refine ⟨?_, ?_, by norm_num, by norm_num⟩
  · simp [mkMLP, MLP.backActivate, backStep, matOfFn, dotVV, sigmoidPrime,
      List.range_succ]
    norm_num
  · simp [mkMLP, MLP.backActivate, backStep, matOfFn, dotVV, sigmoidPrime,
      List.range_succ]
    norm_num

/-- C6 counterexample: the constructor performs no validation, so building a
network with `numInputs = 0 < 1` succeeds instead of failing with
`InvalidTopology`. -/
theorem construct_invalid_topology_succeeds :
    constructMLP (fun _ _ _ => (0 : ℚ)) 0 [2] 1
      = Except.ok (mkMLP (fun _ _ _ => (0 : ℚ)) 0 [2] 1) := rfl

/-- C7 counterexample: calling `activate` with a vector of length 1 on a
network with `numInputs = 2` does fail (the vector–matrix product is not
aligned), but NOT before `self.activations[0][:] = input` has broadcast the
input across the cache: the failing call mutates `activations[0]` (and the
aliased `errors[0]`) from `[0, 0]` to `[5, 5]`, refuting "leaves all internal
caches unchanged". -/
theorem activate_length_one_mutates_cache :
    ((mkMLP (fun _ _ _ => (1 : ℝ)) 2 [] 1).activateE sigmoid [5]).2
        = Except.error "ShapeMismatch" ∧
    (mkMLP (fun _ _ _ => (1 : ℝ)) 2 [] 1).activations.getD 0 [] = [0, 0] ∧
    ((mkMLP (fun _ _ _ => (1 : ℝ)) 2 [] 1).activateE sigmoid [5]).1.activations.getD 0 []
        = [5, 5] ∧
    ((5 : ℝ) ≠ 0) := by
  refine ⟨?_, ?_, ?_, by norm_num⟩
  · simp [mkMLP, matOfFn, MLP.activateE, actGo, assignVec, List.range_succ]
  · simp [mkMLP, MLP.activations, List.range_succ]
  · simp [mkMLP, matOfFn, MLP.activateE, actGo, assignVec, MLP.activations,
      List.range_succ]

theorem getD_mem {β : Type} (l : List β) (i : Nat) (d : β) (h : i < l.length) :
    l.getD i d ∈ l := by
  rw [List.getD_eq_getElem _ _ h]
  exact List.getElem_mem h

theorem gradientDescent_weights_getD [Field α] (m : MLP α) (lr : α) (i : Nat)
    (hi : i < m.weights.length) :
    (m.gradientDescent lr).weights.getD i []
      = matAdd (m.weights.getD i []) (matScale (m.derivatives.getD i []) lr) := by
  simp only [MLP.gradientDescent]
  rw [List.getD_eq_getElem _ _ (by simpa using hi)]
  simp

theorem matAdd_matScale_entry [Field α] {A B : Mat α} {r c : Nat} (lr : α)
    (hA : isMatrix A r c) (hB : isMatrix B r c) {j k : Nat} (hj : j < r) (hk : k < c) :
    ((matAdd A (matScale B lr)).getD j []).getD k 0
      = (A.getD j []).getD k 0 + (B.getD j []).getD k 0 * lr := by
  obtain ⟨hAl, hArow⟩ := hA
  obtain ⟨hBl, hBrow⟩ := hB
  have hjA : j < A.length := by omega
  have hjB : j < B.length := by omega
  have hBs : (matScale B lr).getD j [] = List.map (fun x => x * lr) (B.getD j []) := by
    simp only [matScale]
    rw [List.getD_eq_getElem _ _ (by simpa using hjB), List.getD_eq_getElem _ _ hjB]
    simp
  have hrowA : (A.getD j []).length = c := hArow _ (getD_mem _ _ _ hjA)
  have hrowB : (B.getD j []).length = c := hBrow _ (getD_mem _ _ _ hjB)
  have h1 : k < (A.getD j []).length := by rw [hrowA]; exact hk
  have h2 : k < (B.getD j []).length := by rw [hrowB]; exact hk
  have h2' : k < (List.map (fun x => x * lr) (B.getD j [])).length := by simpa using h2
  rw [matAdd, getD_zipWith _ _ _ _ hjA (by simpa [matScale] using hjB) _ [] []]
  rw [hBs, getD_zipWith _ _ _ _ h1 h2' _ 0 0]
  congr 1
  rw [List.getD_eq_getElem _ _ h2', List.getD_eq_getElem _ _ h2]
  simp

/-- C5: `gradientDescent(r)` replaces entry `(j, k)` of `weights[i]` by
`weights[i][j][k] + derivatives[i][j][k] * r` (elementwise scaled accumulation
with addition, not subtraction) and mutates nothing else: activations, errors,
derivatives and the topology fields are unchanged. -/
theorem gradientDescent_spec [Field α] (m : MLP α) (lr : α) (hwf : WF m) :
    (∀ i < m.weights.length, ∀ j < m.layerList.getD i 0, ∀ k < m.layerList.getD (i + 1) 0,
      (((m.gradientDescent lr).weights.getD i []).getD j []).getD k 0
        = ((m.weights.getD i []).getD j []).getD k 0
          + ((m.derivatives.getD i []).getD j []).getD k 0 * lr) ∧
    (m.gradientDescent lr).weights.length = m.weights.length ∧
    (m.gradientDescent lr).activations = m.activations ∧
    (m.gradientDescent lr).errors = m.errors ∧
    (m.gradientDescent lr).derivatives = m.derivatives ∧
    (m.gradientDescent lr).numInputs = m.numInputs ∧
    (m.gradientDescent lr).hiddenLayers = m.hiddenLayers ∧
    (m.gradientDescent lr).numOutputs = m.numOutputs := by
  obtain ⟨hw1, hb1, hd1, hb2, hw2, hd2, hpos⟩ := hwf
  refine ⟨?_, by simp [MLP.gradientDescent], rfl, rfl, rfl, rfl, rfl, rfl⟩
  intro i hi j hj k hk
  rw [gradientDescent_weights_getD _ _ _ hi]
  exact matAdd_matScale_entry lr (hw2 i hi) (hd2 i (by omega)) hj hk

/-- C6, amended: construction never fails (the source constructor performs no
validation of its arguments), and for every topology the weight matrices have
the declared shapes `(layerSizes[i], layerSizes[i+1])`, with every entry in
`[0, 1)` whenever the random source only yields values in `[0, 1)`. -/
theorem construct_spec_amended {α : Type} [LinearOrderedField α]
    (rand : Nat → Nat → Nat → α) (nI : Nat) (hid : List Nat) (nO : Nat)
    (hrand : ∀ i j k, 0 ≤ rand i j k ∧ rand i j k < 1) :
    constructMLP rand nI hid nO = Except.ok (mkMLP rand nI hid nO) ∧
    (mkMLP rand nI hid nO).weights.length + 1 = (mkMLP rand nI hid nO).layerList.length ∧
    (∀ i < (mkMLP rand nI hid nO).weights.length,
      isMatrix ((mkMLP rand nI hid nO).weights.getD i [])
        ((mkMLP rand nI hid nO).layerList.getD i 0)
        ((mkMLP rand nI hid nO).layerList.getD (i + 1) 0)) ∧
    (∀ M ∈ (mkMLP rand nI hid nO).weights, ∀ row ∈ M, ∀ x ∈ row, 0 ≤ x ∧ x < 1) := by
  have hL : (mkMLP rand nI hid nO).layerList = nI :: (hid ++ [nO]) := rfl
  refine ⟨rfl, ?_, ?_, ?_⟩
  · rw [hL]; simp [mkMLP]
  · intro i hi
    have hi' : i < (nI :: (hid ++ [nO])).length - 1 := by
      simpa [mkMLP] using hi
    have hw : (mkMLP rand nI hid nO).weights.getD i []
        = matOfFn ((nI :: (hid ++ [nO])).getD i 0) ((nI :: (hid ++ [nO])).getD (i + 1) 0)
            (rand i) := by
      simp only [mkMLP]
      rw [List.getD_eq_getElem _ _ (by simpa using hi')]
      simp
    rw [hw, hL]
    exact ⟨by simp [matOfFn], by
      intro row hrow
      simp only [matOfFn, List.mem_map] at hrow
      obtain ⟨j, _, rfl⟩ := hrow
      simp⟩
  · intro M hM row hrow x hx
    simp only [mkMLP, List.mem_map] at hM
    obtain ⟨i, _, rfl⟩ := hM
    simp only [matOfFn, List.mem_map] at hrow
    obtain ⟨j, _, rfl⟩ := hrow
    simp only [List.mem_map] at hx
    obtain ⟨k, _, rfl⟩ := hx
    exact hrand i j k

/-- C7, amended: a call to `activate` with an input whose length is neither
`numInputs` nor 1 fails at the very first slice assignment, before any cache
is touched: the state is returned unchanged together with the shape error.
(A length-1 input instead broadcasts into `activations[0]` and only then
fails at the dot product, mutating the cache — see the counterexample.) -/
theorem activate_shape_mismatch_amended (m : MLP ℝ) (input : List ℝ)
    (hb : (m.buffers.getD 0 []).length = m.numInputs)
    (h1 : input.length ≠ m.numInputs) (h2 : input.length ≠ 1) :
    m.activateE sigmoid input = (m, Except.error "ShapeMismatch") := by
  have hne : ¬ input.length = (m.buffers.getD 0 []).length := by rw [hb]; exact h1
  simp only [MLP.activateE, assignVec, if_neg hne]
  match input, h2 with
  | [], _ => rfl
  | x :: y :: t, _ => rfl
  | [x], h2 => exact absurd rfl h2

theorem actGo_frame [Field α] (f : α → α) :
    ∀ (ls : List Nat) (m : MLP α) (act : List α),
      (actGo f ls m act).1.weights = m.weights ∧
      (actGo f ls m act).1.derivatives = m.derivatives ∧
      (actGo f ls m act).1.numInputs = m.numInputs ∧
      (actGo f ls m act).1.hiddenLayers = m.hiddenLayers ∧
      (actGo f ls m act).1.numOutputs = m.numOutputs := by
  intro ls
  induction ls with
  | nil => intro m act; exact ⟨rfl, rfl, rfl, rfl, rfl⟩
  | cons i rest ih =>
      intro m act
      simp only [actGo]
      by_cases hlen : act.length = (m.weights.getD i []).length
      · rw [if_pos hlen]
        cases hassign : assignVec (m.buffers.getD (i + 1) [])
            ((vecMat act (m.weights.getD i [])).map f) with
        | ok b => exact ih _ _
        | error s => exact ⟨rfl, rfl, rfl, rfl, rfl⟩
      · rw [if_neg hlen]
        exact ⟨rfl, rfl, rfl, rfl, rfl⟩

/-- C10: a forward pass never changes the weight matrices, the derivative
matrices, or the topology fields — whether it succeeds or fails, `activate`
mutates only the activation buffers (and the error caches that share their
storage). -/
theorem activate_frame (m : MLP ℝ) (input : List ℝ)
    (_hlen : input.length = m.numInputs) :
    ((m.activateE sigmoid input).1.weights = m.weights) ∧
    ((m.activateE sigmoid input).1.derivatives = m.derivatives) ∧
    ((m.activateE sigmoid input).1.numInputs = m.numInputs) ∧
    ((m.activateE sigmoid input).1.hiddenLayers = m.hiddenLayers) ∧
    ((m.activateE sigmoid input).1.numOutputs = m.numOutputs) := by
  simp only [MLP.activateE]
  cases hassign : assignVec (m.buffers.getD 0 []) input with
  | ok b0 => exact actGo_frame sigmoid _ _ _
  | error s => exact ⟨rfl, rfl, rfl, rfl, rfl⟩

theorem mse_sum_repr {α : Type} [LinearOrderedField α] (t o : List α)
    (h : t.length = o.length) :
    mse t o = (∑ i in Finset.range t.length, (t.getD i 0 - o.getD i 0) ^ 2) / (t.length : α) := by
  have hlen : (List.zipWith (fun a b => (a - b) ^ 2) t o).length = t.length := by
    simp [List.length_zipWith, h]
  simp only [mse]
  rw [list_sum_getD, hlen]
  congr 1
  apply Finset.sum_congr rfl
  intro i hi
  have hi' : i < t.length := Finset.mem_range.mp hi
  exact getD_zipWith _ _ _ _ hi' (by omega) _ 0 0

/-- C8: for equal-length nonempty vectors, `mse(t, o)` is the average of the
squared differences, is symmetric, is nonnegative, and vanishes exactly when
the two vectors agree elementwise.  (On empty input the Python code divides
by zero and yields NaN, which has no counterpart in an ordered field, so the
nonemptiness hypothesis is required.) -/
theorem mse_spec {α : Type} [LinearOrderedField α] (t o : List α) (h : t.length = o.length)
    (hn : 0 < t.length) :
    mse t o = (∑ i in Finset.range t.length, (t.getD i 0 - o.getD i 0) ^ 2) / (t.length : α) ∧
    mse t o = mse o t ∧
    0 ≤ mse t o ∧
    (mse t o = 0 ↔ t = o) := by
  have hrepr := mse_sum_repr t o h
  have hrepr' := mse_sum_repr o t h.symm
  have hcast : ((t.length : α)) ≠ 0 := ne_of_gt (by exact_mod_cast hn)
  refine ⟨hrepr, ?_, ?_, ?_⟩
  · rw [hrepr, hrepr', ← h]
    congr 1
    apply Finset.sum_congr rfl
    intro i _
    ring
  · rw [hrepr]
    apply div_nonneg
    · exact Finset.sum_nonneg (fun i _ => by positivity)
    · positivity
  · rw [hrepr]
    rw [div_eq_zero_iff]
    constructor
    · rintro (hsum | hbad)
      · have hall := (Finset.sum_eq_zero_iff_of_nonneg (fun i _ => by positivity)).mp hsum
        apply List.ext_getElem h
        intro i h1 h2
        have hterm := hall i (Finset.mem_range.mpr h1)
        have hsub : t.getD i 0 - o.getD i 0 = 0 :=
          (pow_eq_zero_iff (by norm_num : (2 : ℕ) ≠ 0)).mp hterm
        have := sub_eq_zero.mp hsub
        rwa [List.getD_eq_getElem _ _ h1, List.getD_eq_getElem _ _ h2] at this
      · exact absurd hbad hcast
    · rintro rfl
      left
      exact Finset.sum_eq_zero (fun i _ => by simp)

theorem backStep_derivatives_length [Field α] (st : MLP α × List α) (i : Nat) :
    (backStep st i).1.derivatives.length = st.1.derivatives.length := by
  simp [backStep]

theorem backFold_const_rows [Field α] (l : List Nat) :
    ∀ (st : MLP α × List α) (j : Nat), (∀ i ∈ l, i < st.1.derivatives.length) →
      ((j ∈ l → constantRows ((l.foldl backStep st).1.derivatives.getD j [])) ∧
       (j ∉ l → (l.foldl backStep st).1.derivatives.getD j [] = st.1.derivatives.getD j [])) := by
  induction l with
  | nil =>
      intro st j _
      exact ⟨fun hj => absurd hj (List.not_mem_nil j), fun _ => rfl⟩
  | cons i rest ih =>
      intro st j hbound
      have hbound' : ∀ a ∈ rest, a < (backStep st i).1.derivatives.length := by
        intro a ha
        rw [backStep_derivatives_length]
        exact hbound a (List.mem_cons_of_mem _ ha)
      have hstep : (backStep st i).1.derivatives
          = st.1.derivatives.set i
              ((st.1.derivatives.getD i []).map (fun _ =>
                List.zipWith (fun e a => e * sigmoidPrime a) st.2
                  (st.1.buffers.getD (i + 1) []))) := by
        simp [backStep]
      have ihj := ih (backStep st i) j hbound'
      simp only [List.foldl_cons]
      constructor
      · intro hj
        rcases List.mem_cons.mp hj with hji | hjr
        · by_cases hjr2 : j ∈ rest
          · exact ihj.1 hjr2
          · rw [ihj.2 hjr2, hstep]
            subst hji
            have hi : j < st.1.derivatives.length := hbound j (List.mem_cons_self _ _)
            rw [getD_set_self _ _ _ _ hi]
            intro r1 h1 r2 h2
            rcases List.mem_map.mp h1 with ⟨x1, _, rfl⟩
            rcases List.mem_map.mp h2 with ⟨x2, _, rfl⟩
            rfl
        · exact ihj.1 hjr
      · intro hj
        have hj1 : j ≠ i := fun hji => hj (hji ▸ List.mem_cons_self _ _)
        have hj2 : j ∉ rest := fun hr => hj (List.mem_cons_of_mem _ hr)
        rw [ihj.2 hj2, hstep]
        exact getD_set_ne _ _ _ _ _ (fun hh => hj1 hh.symm)

theorem backFold_indep [Field α] :
    ∀ (k : Nat) (m₁ m₂ : MLP α) (err : List α),
      m₁.weights = m₂.weights →
      m₁.derivatives = m₂.derivatives →
      m₁.buffers.length = m₂.buffers.length →
      k ≤ m₁.buffers.length →
      m₁.buffers.getD k [] = m₂.buffers.getD k [] →
      (((List.range k).reverse.foldl backStep (m₁, err)).1.derivatives
          = ((List.range k).reverse.foldl backStep (m₂, err)).1.derivatives) ∧
      (((List.range k).reverse.foldl backStep (m₁, err)).2
          = ((List.range k).reverse.foldl backStep (m₂, err)).2) := by
  intro k
  induction k with
  | zero =>
      intro m₁ m₂ err hw hd _ _ _
      simp only [List.range_zero, List.reverse_nil, List.foldl_nil]
      exact ⟨hd, trivial⟩
  | succ k ih =>
      intro m₁ m₂ err hw hd hblen hk hagree
      have hrange : (List.range (k + 1)).reverse = k :: (List.range k).reverse := by
        simp [List.range_succ]
      rw [hrange]
      simp only [List.foldl_cons, backStep]
      set δ := List.zipWith (fun e a => e * sigmoidPrime a) err (m₁.buffers.getD (k + 1) [])
        with hδ
      have hdelta : List.zipWith (fun e a => e * sigmoidPrime a) err (m₂.buffers.getD (k + 1) [])
          = δ := by rw [hδ, hagree]
      rw [hdelta, hw, hd]
      apply ih
      · simp
      · simp
      · simpa using hblen
      · simpa using Nat.le_of_succ_le hk
      · have hk' : k < m₁.buffers.length := Nat.lt_of_succ_le hk
        have hk2 : k < m₂.buffers.length := by omega
        simp only []
        rw [getD_set_self _ _ _ _ (by simpa using hk'),
          getD_set_self _ _ _ _ (by simpa using hk2)]

/-- C9: after `backActivate`, every stored `derivatives[i]` has all rows
identical — the broadcast of the layer's delta vector performed by
`self.derivatives[i][:] = delta` — and the stored derivatives together with
the returned error are independent of the buffer contents (in particular of
the cached input-side activations): replacing the buffers by any list of the
same length leaves both unchanged. -/
theorem backActivate_rows_identical [Field α] (m : MLP α) (e : List α) (hwf : WF m) :
    (∀ i < m.derivatives.length,
      constantRows ((m.backActivate e).1.derivatives.getD i [])) ∧
    (∀ bufs2 : List (List α), bufs2.length = m.buffers.length →
      (({ m with buffers := bufs2 } : MLP α).backActivate e).1.derivatives
          = (m.backActivate e).1.derivatives ∧
      (({ m with buffers := bufs2 } : MLP α).backActivate e).2 = (m.backActivate e).2) := by
  obtain ⟨hw1, hb1, hd1, _hb2, _hw2, _hd2, _hpos⟩ := hwf
  have hLbuf : m.buffers.length = m.derivatives.length + 1 := by omega
  constructor
  · intro i hi
    have hmem : i ∈ (List.range m.derivatives.length).reverse := by
      simpa using hi
    have hbound : ∀ a ∈ (List.range m.derivatives.length).reverse,
        a < ({ m with buffers := m.buffers.set (m.buffers.length - 1) e } :
          MLP α).derivatives.length := by
      intro a ha
      simpa using (by simpa using ha : a < m.derivatives.length)
    have h := backFold_const_rows (List.range m.derivatives.length).reverse
      ({ m with buffers := m.buffers.set (m.buffers.length - 1) e }, e) i hbound
    simpa [MLP.backActivate] using h.1 hmem
  · intro bufs2 hblen2
    have hidx : m.buffers.length - 1 = m.derivatives.length := by omega
    have hidx2 : bufs2.length - 1 = m.derivatives.length := by omega
    have h := backFold_indep m.derivatives.length
      ({ m with buffers := bufs2.set (bufs2.length - 1) e } : MLP α)
      ({ m with buffers := m.buffers.set (m.buffers.length - 1) e } : MLP α)
      e rfl rfl (by simpa using hblen2)
      (by simp; omega)
      (by
        simp only []
        rw [hidx, hidx2]
        rw [getD_set_self _ _ _ _ (by omega), getD_set_self _ _ _ _ (by omega)])
    exact ⟨by simpa [MLP.backActivate] using h.1, by simpa [MLP.backActivate] using h.2⟩

theorem actGo_ok [Field α] (f : α → α) :
    ∀ (n k : Nat) (m : MLP α) (act : List α),
      k + n + 1 ≤ m.buffers.length →
      m.buffers.length = m.layerList.length →
      (∀ i < m.weights.length,
        isMatrix (m.weights.getD i []) (m.layerList.getD i 0) (m.layerList.getD (i + 1) 0)) →
      k + n ≤ m.weights.length →
      (∀ i < m.buffers.length, (m.buffers.getD i []).length = m.layerList.getD i 0) →
      (∀ s ∈ m.layerList, 0 < s) →
      act.length = m.layerList.getD k 0 →
      m.buffers.getD k [] = act →
      ∃ bufs out,
        actGo f (List.range' k n) m act = ({ m with buffers := bufs }, Except.ok out) ∧
        bufs.length = m.buffers.length ∧
        (∀ j ≤ k, bufs.getD j [] = m.buffers.getD j []) ∧
        (∀ j, k ≤ j → j < k + n →
          bufs.getD (j + 1) [] = (vecMat (bufs.getD j []) (m.weights.getD j [])).map f) ∧
        out = bufs.getD (k + n) [] ∧
        out.length = m.layerList.getD (k + n) 0 := by
  intro n
  induction n with
  | zero =>
      intro k m act _hlen1 _hlen2 _hw _hwk _hb _hpos hact hcur
      refine ⟨m.buffers, act, rfl, rfl, fun j _ => rfl, fun j h1 h2 => by omega, ?_, ?_⟩
      · rw [Nat.add_zero, hcur]
      · rw [Nat.add_zero]; exact hact
  | succ n ih =>
      intro k m act hlen1 hlen2 hw hwk hb hpos hact hcur
      have hkw : k < m.weights.length := by omega
      have hkS : k < m.layerList.length := by omega
      have hk1S : k + 1 < m.layerList.length := by omega
      have hk1b : k + 1 < m.buffers.length := by omega
      have hWmat := hw k hkw
      have hSk_pos : 0 < m.layerList.getD k 0 := by
        have : m.layerList.getD k 0 ∈ m.layerList := getD_mem _ _ _ hkS
        exact hpos _ this
      have hcond : act.length = (m.weights.getD k []).length := by
        rw [hact, hWmat.1]
      have hcols : cols (m.weights.getD k []) = m.layerList.getD (k + 1) 0 :=
        cols_of_isMatrix hWmat hSk_pos
      have hact2len : ((vecMat act (m.weights.getD k [])).map f).length
          = m.layerList.getD (k + 1) 0 := by
        rw [List.length_map, vecMat_length, hcols]
      have hassign : assignVec (m.buffers.getD (k + 1) [])
          ((vecMat act (m.weights.getD k [])).map f)
          = Except.ok ((vecMat act (m.weights.getD k [])).map f) := by
        unfold assignVec
        rw [if_pos]
        rw [hact2len, hb _ hk1b]
      have hrange : List.range' k (n + 1) = k :: List.range' (k + 1) n := List.range'_succ _ _ _
      set act2 := (vecMat act (m.weights.getD k [])).map f with hact2
      set m2 : MLP α := { m with buffers := m.buffers.set (k + 1) act2 } with hm2
      have hm2len : m2.buffers.length = m.buffers.length := by
        simp [hm2]
      have hm2LL : m2.layerList = m.layerList := rfl
      have hm2w : m2.weights = m.weights := rfl
      have hstep : actGo f (List.range' k (n + 1)) m act = actGo f (List.range' (k + 1) n) m2 act2 := by
        rw [hrange]
        simp only [actGo]
        rw [if_pos hcond, hassign]
      have hb2 : ∀ i < m2.buffers.length, (m2.buffers.getD i []).length = m2.layerList.getD i 0 := by
        intro i hi
        rw [hm2LL]
        by_cases hik : i = k + 1
        · subst hik
          simp only [hm2]
          rw [getD_set_self _ _ _ _ hk1b]
          exact hact2len
        · simp only [hm2]
          rw [getD_set_ne _ _ _ _ _ (fun hh => hik hh.symm)]
          exact hb i (by omega)
      obtain ⟨bufs, out, hGo, hblen, hunch, hrec, hout, houtlen⟩ :=
        ih (k + 1) m2 act2
          (by rw [hm2len]; omega)
          (by rw [hm2len, hm2LL]; exact hlen2)
          (by rw [hm2w, hm2LL]; exact hw)
          (by rw [hm2w]; omega)
          hb2
          (by rw [hm2LL]; exact hpos)
          (by rw [hm2LL]; exact hact2len)
          (by simp only [hm2]; exact getD_set_self _ _ _ _ hk1b)
      refine ⟨bufs, out, ?_, ?_, ?_, ?_, ?_, ?_⟩
      · rw [hstep, hGo]
      · rw [hblen, hm2len]
      · intro j hj
        rw [hunch j (by omega)]
        simp only [hm2]
        exact getD_set_ne _ _ _ _ _ (by omega)
      · intro j hj1 hj2
        by_cases hjk : j = k
        · subst hjk
          have h1 : bufs.getD (j + 1) [] = m2.buffers.getD (j + 1) [] := hunch (j + 1) (Nat.le_refl _)
          have h2 : m2.buffers.getD (j + 1) [] = act2 := by
            simp only [hm2]
            exact getD_set_self _ _ _ _ hk1b
          have h3 : bufs.getD j [] = m.buffers.getD j [] := by
            rw [hunch j (by omega)]
            simp only [hm2]
            exact getD_set_ne _ _ _ _ _ (by omega)
          rw [h1, h2, h3, hcur, hact2]
        · have hj1' : k + 1 ≤ j := by omega
          have := hrec j hj1' (by omega)
          rw [hm2w] at this
          exact this
      · rw [hout, show k + 1 + n = k + (n + 1) from by omega]
      · rw [houtlen, hm2LL, show k + 1 + n = k + (n + 1) from by omega]


/-- C4: for a well-formed network and an input vector of length `numInputs`,
`activate` succeeds, stores the input into `activations[0]`, computes
`activations[i+1] = sigmoid(activations[i] . weights[i])` elementwise for each
transition `i = 0..L-1` in order, and returns `activations[L]`, a vector of
length `numOutputs`. -/
theorem activate_forward_spec (m : MLP ℝ) (input : List ℝ) (hwf : WF m)
    (hlen : input.length = m.numInputs) :
    ∃ m' out, m.activateE sigmoid input = (m', Except.ok out) ∧
      m'.activations.getD 0 [] = input ∧
      (∀ i < m.weights.length,
        m'.activations.getD (i + 1) []
          = (vecMat (m'.activations.getD i []) (m.weights.getD i [])).map sigmoid) ∧
      out = m'.activations.getD m.weights.length [] ∧
      out.length = m.numOutputs := by
  obtain ⟨hw1, hb1, hd1, hb2, hw2, hd2, hpos⟩ := hwf
  have hblen_pos : 0 < m.buffers.length := by
    rw [hb1, layerList_length]; omega
  have hS0 : m.layerList.getD 0 0 = m.numInputs := rfl
  have hb0len : (m.buffers.getD 0 []).length = m.numInputs := by
    have := hb2 0 hblen_pos
    rwa [hS0] at this
  have hassign : assignVec (m.buffers.getD 0 []) input = Except.ok input := by
    unfold assignVec
    rw [if_pos]
    rw [hlen, hb0len]
  set m1 : MLP ℝ := { m with buffers := m.buffers.set 0 input } with hm1
  have hm1len : m1.buffers.length = m.buffers.length := by simp [hm1]
  have hm1LL : m1.layerList = m.layerList := rfl
  have hAE : m.activateE sigmoid input
      = actGo sigmoid (List.range m.weights.length) m1 input := by
    simp only [MLP.activateE, hassign]
  have hrangeL : List.range m.weights.length = List.range' 0 m.weights.length :=
    List.range_eq_range' _
  obtain ⟨bufs, out, hGo, hblen, hunch, hrec, hout, houtlen⟩ :=
    actGo_ok sigmoid m.weights.length 0 m1 input
      (by
        have h1 : m1.buffers.length = m.buffers.length := by simp [hm1]
        omega)
      (by rw [hm1len, hm1LL]; exact hb1)
      (by rw [hm1LL]; exact hw2)
      (by
        have h1 : m1.weights.length = m.weights.length := rfl
        omega)
      (by
        intro i hi
        rw [hm1LL]
        by_cases hi0 : i = 0
        · subst hi0
          simp only [hm1]
          rw [getD_set_self _ _ _ _ hblen_pos, hS0]
          exact hlen
        · simp only [hm1]
          rw [getD_set_ne _ _ _ _ _ (fun hh => hi0 hh.symm)]
          exact hb2 i (by rw [hm1len] at hi; exact hi))
      (by rw [hm1LL]; exact hpos)
      (by rw [hm1LL, hS0]; exact hlen)
      (by simp only [hm1]; exact getD_set_self _ _ _ _ hblen_pos)
  refine ⟨{ m with buffers := bufs }, out, ?_, ?_, ?_, ?_, ?_⟩
  · rw [hAE, hrangeL]
    exact hGo
  · show bufs.getD 0 [] = input
    rw [hunch 0 (Nat.le_refl 0)]
    simp only [hm1]
    exact getD_set_self _ _ _ _ hblen_pos
  · intro i hi
    show bufs.getD (i + 1) [] = (vecMat (bufs.getD i []) (m.weights.getD i [])).map sigmoid
    exact hrec i (Nat.zero_le _) (by omega)
  · show out = bufs.getD m.weights.length []
    rw [hout, show 0 + m.weights.length = m.weights.length from by omega]
  · rw [houtlen, hm1LL, show 0 + m.weights.length = m.weights.length from by omega]
    have hLeq : m.weights.length = m.hiddenLayers.length + 1 := by
      have := layerList_length m
      omega
    rw [hLeq]
    exact layerList_getD_last m



/-! ## Witnesses -/

/-- Witness for `activate_forward_spec` at a concrete network and input. -/
theorem activate_forward_spec_witness :
    WF wnetR ∧ ([(0 : ℝ)]).length = wnetR.numInputs ∧
    (∃ m' out, wnetR.activateE sigmoid [0] = (m', Except.ok out) ∧
      m'.activations.getD 0 [] = [0] ∧
      (∀ i < wnetR.weights.length,
        m'.activations.getD (i + 1) []
          = (vecMat (m'.activations.getD i []) (wnetR.weights.getD i [])).map sigmoid) ∧
      out = m'.activations.getD wnetR.weights.length [] ∧
      out.length = wnetR.numOutputs) :=
  ⟨by unfold WF isMatrix; decide, by decide,
   activate_forward_spec wnetR [0] (by unfold WF isMatrix; decide) (by decide)⟩

/-- Witness for `gradientDescent_spec` at a concrete network. -/
theorem gradientDescent_spec_witness :
    WF wnetQ ∧
    ((∀ i < wnetQ.weights.length, ∀ j < wnetQ.layerList.getD i 0,
        ∀ k < wnetQ.layerList.getD (i + 1) 0,
      (((wnetQ.gradientDescent (1 / 4)).weights.getD i []).getD j []).getD k 0
        = ((wnetQ.weights.getD i []).getD j []).getD k 0
          + ((wnetQ.derivatives.getD i []).getD j []).getD k 0 * (1 / 4)) ∧
    (wnetQ.gradientDescent (1 / 4)).weights.length = wnetQ.weights.length ∧
    (wnetQ.gradientDescent (1 / 4)).activations = wnetQ.activations ∧
    (wnetQ.gradientDescent (1 / 4)).errors = wnetQ.errors ∧
    (wnetQ.gradientDescent (1 / 4)).derivatives = wnetQ.derivatives ∧
    (wnetQ.gradientDescent (1 / 4)).numInputs = wnetQ.numInputs ∧
    (wnetQ.gradientDescent (1 / 4)).hiddenLayers = wnetQ.hiddenLayers ∧
    (wnetQ.gradientDescent (1 / 4)).numOutputs = wnetQ.numOutputs) :=
  ⟨by unfold WF isMatrix; decide,
   gradientDescent_spec wnetQ (1 / 4) (by unfold WF isMatrix; decide)⟩

/-- Witness for `construct_spec_amended` at a concrete random source. -/
theorem construct_spec_amended_witness :
    (∀ i j k : Nat,
      0 ≤ (fun _ _ _ => (1 / 2 : ℚ)) i j k ∧ (fun _ _ _ => (1 / 2 : ℚ)) i j k < 1) ∧
    (constructMLP (fun _ _ _ => (1 / 2 : ℚ)) 1 [1] 1
        = Except.ok (mkMLP (fun _ _ _ => (1 / 2 : ℚ)) 1 [1] 1) ∧
      (mkMLP (fun _ _ _ => (1 / 2 : ℚ)) 1 [1] 1).weights.length + 1
        = (mkMLP (fun _ _ _ => (1 / 2 : ℚ)) 1 [1] 1).layerList.length ∧
      (∀ i < (mkMLP (fun _ _ _ => (1 / 2 : ℚ)) 1 [1] 1).weights.length,
        isMatrix ((mkMLP (fun _ _ _ => (1 / 2 : ℚ)) 1 [1] 1).weights.getD i [])
          ((mkMLP (fun _ _ _ => (1 / 2 : ℚ)) 1 [1] 1).layerList.getD i 0)
          ((mkMLP (fun _ _ _ => (1 / 2 : ℚ)) 1 [1] 1).layerList.getD (i + 1) 0)) ∧
      (∀ M ∈ (mkMLP (fun _ _ _ => (1 / 2 : ℚ)) 1 [1] 1).weights,
        ∀ row ∈ M, ∀ x ∈ row, 0 ≤ x ∧ x < 1)) :=
  ⟨fun _ _ _ => ⟨by norm_num, by norm_num⟩,
   construct_spec_amended (fun _ _ _ => (1 / 2 : ℚ)) 1 [1] 1
     (fun _ _ _ => ⟨by norm_num, by norm_num⟩)⟩

/-- Witness for `activate_shape_mismatch_amended` at a concrete network and
a wrong-length input. -/
theorem activate_shape_mismatch_amended_witness :
    (wnetR2.buffers.getD 0 []).length = wnetR2.numInputs ∧
    ([(1 : ℝ), 2, 3]).length ≠ wnetR2.numInputs ∧
    ([(1 : ℝ), 2, 3]).length ≠ 1 ∧
    wnetR2.activateE sigmoid [1, 2, 3] = (wnetR2, Except.error "ShapeMismatch") :=
  ⟨by decide, by decide, by decide,
   activate_shape_mismatch_amended wnetR2 [1, 2, 3] (by decide) (by decide) (by decide)⟩

/-- Witness for `mse_spec` at concrete vectors. -/
theorem mse_spec_witness :
    ([(1 : ℚ), 2]).length = ([(3 : ℚ), 5]).length ∧ 0 < ([(1 : ℚ), 2]).length ∧
    (mse [(1 : ℚ), 2] [3, 5]
        = (∑ i in Finset.range ([(1 : ℚ), 2]).length,
            (([(1 : ℚ), 2]).getD i 0 - ([(3 : ℚ), 5]).getD i 0) ^ 2)
          / (([(1 : ℚ), 2]).length : ℚ) ∧
      mse [(1 : ℚ), 2] [3, 5] = mse [(3 : ℚ), 5] [1, 2] ∧
      0 ≤ mse [(1 : ℚ), 2] [3, 5] ∧
      (mse [(1 : ℚ), 2] [3, 5] = 0 ↔ [(1 : ℚ), 2] = [3, 5])) :=
  ⟨by decide, by decide, mse_spec [1, 2] [3, 5] (by decide) (by decide)⟩

/-- Witness for `backActivate_rows_identical` at a concrete network. -/
theorem backActivate_rows_identical_witness :
    WF wnetQ ∧
    ((∀ i < wnetQ.derivatives.length,
        constantRows ((wnetQ.backActivate [1 / 2]).1.derivatives.getD i [])) ∧
     (∀ bufs2 : List (List ℚ), bufs2.length = wnetQ.buffers.length →
        (({ wnetQ with buffers := bufs2 } : MLP ℚ).backActivate [1 / 2]).1.derivatives
            = (wnetQ.backActivate [1 / 2]).1.derivatives ∧
        (({ wnetQ with buffers := bufs2 } : MLP ℚ).backActivate [1 / 2]).2
            = (wnetQ.backActivate [1 / 2]).2)) :=
  ⟨by unfold WF isMatrix; decide,
   backActivate_rows_identical wnetQ [1 / 2] (by unfold WF isMatrix; decide)⟩

/-- Witness for `activate_frame` at a concrete network and input. -/
theorem activate_frame_witness :
    ([(0 : ℝ)]).length = wnetR.numInputs ∧
    ((wnetR.activateE sigmoid [0]).1.weights = wnetR.weights ∧
     (wnetR.activateE sigmoid [0]).1.derivatives = wnetR.derivatives ∧
     (wnetR.activateE sigmoid [0]).1.numInputs = wnetR.numInputs ∧
     (wnetR.activateE sigmoid [0]).1.hiddenLayers = wnetR.hiddenLayers ∧
     (wnetR.activateE sigmoid [0]).1.numOutputs = wnetR.numOutputs) :=
  ⟨by decide, activate_frame wnetR [0] (by decide)⟩

end MLPNet
